import Mathlib

/-!
Shallow embedding of the TextMate grammar service of
vscode-comment-translate-plus (src/src/util/ext.ts): scope registration,
injection filtering, language-id assignment during grammar extraction,
embedded-language resolution, lazy pattern-engine initialization, and the
language availability query.  File reads, the vscode-textmate Registry and
the onigasm library are external collaborators; only the data this module
computes and hands to them is modelled.
-/

/- ===== JavaScript string and regex helpers ===== -/

/-- Line terminator characters that the JavaScript regular-expression dot
does not match. -/
def isLineTerminator (c : Char) : Bool :=
  c == '\n' || c == '\r' || c == '\u2028' || c == '\u2029'

/-- Whether the second character list starts with the first one. -/
def listStartsWith : List Char → List Char → Bool
  | [], _ => true
  | _ :: _, [] => false
  | p :: ps, c :: cs => p == c && listStartsWith ps cs

/-- Whether the character list contains the needle as a contiguous sublist. -/
def listContainsSub (needle : List Char) : List Char → Bool
  | [] => needle.isEmpty
  | c :: cs => listStartsWith needle (c :: cs) || listContainsSub needle cs

/-- Model of the JavaScript test s.includes(needle) used on scope names. -/
def strIncludes (s needle : String) : Bool :=
  listContainsSub needle.toList s.toList

/-- Scanning part of the JavaScript regex test for jsdoc-dot-star-injection:
after "jsdoc" has been matched, look for "injection" further right with no
line terminator consumed by the dot-star in between. -/
def searchInjectionFrom : List Char → Bool
  | [] => false
  | c :: cs =>
    listStartsWith "injection".toList (c :: cs) ||
      (!isLineTerminator c && searchInjectionFrom cs)

/-- Model of the JavaScript regex test for jsdoc-dot-star-injection on a
character list: some position starts "jsdoc" and, from right after it,
"injection" occurs with no intervening line terminator. -/
def jsdocInjectionChars : List Char → Bool
  | [] => false
  | c :: cs =>
    (listStartsWith "jsdoc".toList (c :: cs) &&
      searchInjectionFrom (List.drop 4 cs)) ||
    jsdocInjectionChars cs

/-- Model of the JavaScript regex test for jsdoc-dot-star-injection on a
string (the test used on scope names in ext.ts). -/
def testJsdocInjection (s : String) : Bool :=
  jsdocInjectionChars s.toList

/- ===== Data model ===== -/

/-- A JavaScript runtime value sitting in an embedded-languages map: either a
string (the expected shape per IEmbeddedLanguagesMap) or any non-string
value, which the code guards against with a typeof check. -/
inductive JsVal where
  | str (s : String)
  | other
deriving DecidableEq

/-- StandardTokenType enum of ext.ts (Other = 0, Comment = 1, String = 2,
RegEx = 4). -/
inductive StandardTokenType where
  | other
  | comment
  | string
  | regex
deriving DecidableEq

/-- TMLanguageRegistration of ext.ts: the stored grammar descriptor.  Maps
are modelled as association lists in insertion order. -/
structure TMLanguageRegistration where
  scopeName : String
  grammarLocation : String
  embeddedLanguages : List (String × String)
  tokenTypes : List (String × StandardTokenType)
deriving DecidableEq

/-- Constructor body of TMLanguageRegistration: copies only embedded-language
entries whose value is a string (typeof guard), and maps only the token type
strings "string", "other" and "comment" (the switch has no default case, so
every other value is skipped).  An absent (undefined) input map leaves the
stored map empty. -/
def mkTMLanguageRegistration (scopeName grammarLocation : String)
    (embeddedLanguages : Option (List (String × JsVal)))
    (tokenTypes : Option (List (String × String))) : TMLanguageRegistration :=
  { scopeName := scopeName
    grammarLocation := grammarLocation
    embeddedLanguages :=
      match embeddedLanguages with
      | none => []
      | some el =>
        el.filterMap (fun p =>
          match p.2 with
          | JsVal.str language => some (p.1, language)
          | JsVal.other => none)
    tokenTypes :=
      match tokenTypes with
      | none => []
      | some tt =>
        tt.filterMap (fun p =>
          if p.2 = "string" then some (p.1, StandardTokenType.string)
          else if p.2 = "other" then some (p.1, StandardTokenType.other)
          else if p.2 = "comment" then some (p.1, StandardTokenType.comment)
          else none) }

/-- TMScopeRegistry of ext.ts: scope name to registration, with absence for
unregistered scopes. -/
abbrev TMScopeRegistry := String → Option TMLanguageRegistration

/-- The freshly constructed, empty scope registry. -/
def TMScopeRegistry.empty : TMScopeRegistry := fun _ => none

/-- TMScopeRegistry.register: unconditionally stores a fresh
TMLanguageRegistration under the scope name, overwriting any existing one
(the existing-registration branch in the source only held a commented-out
warning). -/
def TMScopeRegistry.register (r : TMScopeRegistry) (scopeName grammarLocation : String)
    (embeddedLanguages : Option (List (String × JsVal)))
    (tokenTypes : Option (List (String × String))) : TMScopeRegistry :=
  fun s =>
    if s = scopeName then
      some (mkTMLanguageRegistration scopeName grammarLocation embeddedLanguages tokenTypes)
    else r s

/-- TMScopeRegistry.getLanguageRegistration: lookup, null for absence. -/
def TMScopeRegistry.getLanguageRegistration (r : TMScopeRegistry)
    (scopeName : String) : Option TMLanguageRegistration :=
  r scopeName

/-- TMScopeRegistry.getGrammarLocation: the stored location, or the empty
string when the scope is unregistered. -/
def TMScopeRegistry.getGrammarLocation (r : TMScopeRegistry) (scopeName : String) : String :=
  match r scopeName with
  | some data => data.grammarLocation
  | none => ""

/-- ITMLanguageExtensionPoint of ext.ts: a numeric language id paired with a
language name. -/
structure ITMLanguageExtensionPoint where
  id : Nat
  name : String
deriving DecidableEq

/-- ITMSyntaxExtensionPoint of ext.ts: one grammar contribution.  Fields that
may be absent (undefined) in a package manifest are Options; the language
field also models the falsy-empty-string case through its value. -/
structure ITMSyntaxExtensionPoint where
  language : Option String
  scopeName : String
  path : String
  embeddedLanguages : Option (List (String × JsVal))
  tokenTypes : Option (List (String × String))
  injectTo : Option (List String)

/-- IGrammarExtensions of ext.ts: the grammar contributions of one extension
together with its declared languages and location. -/
structure IGrammarExtensions where
  value : List ITMSyntaxExtensionPoint
  extensionLocation : String
  languages : List ITMLanguageExtensionPoint

/-- The contributes section of a package manifest as far as grammar
extraction reads it: the grammars and languages arrays, each possibly
absent.  The languages array is reduced to the id field of each item, which
extractGrammarExtensions uses as the language name. -/
structure PackageContributes where
  grammars : Option (List ITMSyntaxExtensionPoint)
  languages : Option (List String)

/-- One entry of the input to extractGrammarExtensions: a parsed package
manifest and the extension path. -/
structure PackageInput where
  contributes : Option PackageContributes
  extensionPath : String

/- ===== extractGrammarExtensions ===== -/

/-- Body of the contributesLanguages.map closure of extractGrammarExtensions:
assigns languageId, languageId + 1, ... to the language names in order and
returns the next free id. -/
def assignIds : List String → Nat → List ITMLanguageExtensionPoint × Nat
  | [], languageId => ([], languageId)
  | n :: rest, languageId =>
    let tail := assignIds rest (languageId + 1)
    (⟨languageId, n⟩ :: tail.1, tail.2)

/-- extractGrammarExtensions of ext.ts: keeps the packages whose manifest has
a contributes.grammars field (an empty grammars array is truthy and is
kept), assigns sequential ids to their declared languages starting from the
given languageId, and returns the next free id. -/
def extractGrammarExtensions :
    List PackageInput → Nat → List IGrammarExtensions × Nat
  | [], languageId => ([], languageId)
  | p :: rest, languageId =>
    match p.contributes with
    | none => extractGrammarExtensions rest languageId
    | some c =>
      match c.grammars with
      | none => extractGrammarExtensions rest languageId
      | some gs =>
        let assigned := assignIds (c.languages.getD []) languageId
        let tail := extractGrammarExtensions rest assigned.2
        (⟨gs, p.extensionPath, assigned.1⟩ :: tail.1, tail.2)

/-- All language entries of the extracted grammar extensions, in assignment
order. -/
def allAssignedLanguages (exts : List IGrammarExtensions) : List ITMLanguageExtensionPoint :=
  (exts.map (fun e => e.languages)).flatten

/- ===== TextMateService state ===== -/

/-- Mutable state of a TextMateService instance: the scope registry, the
injection index (target scope to ordered injecting scope names), the
injected embedded-language maps per target scope, the language-name to id
map, and the language to scope map. -/
structure TextMateServiceState where
  scopeRegistry : TMScopeRegistry
  injections : String → Option (List String)
  injectedEmbeddedLanguages : String → Option (List (List (String × JsVal)))
  languages : String → Option Nat
  languageToScope : String → Option String

/-- State of a TextMateService right after the field initializers of the
constructor, before _parseExtensions runs. -/
def TextMateServiceState.initial : TextMateServiceState :=
  { scopeRegistry := TMScopeRegistry.empty
    injections := fun _ => none
    injectedEmbeddedLanguages := fun _ => none
    languages := fun _ => none
    languageToScope := fun _ => none }

/-- PROBLEMATIC_INJECTIONS of TextMateService: scope names of grammar
injections known to contain look-behind patterns unsupported by onigasm. -/
def PROBLEMATIC_INJECTIONS : List String :=
  ["documentation.injection.ts", "documentation.injection.js.jsx"]

/-- Combined filter used both at registration time (shouldSkip in
_handleGrammarExtensionPointUser) and at injection query time
(getInjections): exact membership in PROBLEMATIC_INJECTIONS, the
documentation-dot-injection substring test, or the jsdoc-dot-star-injection
regex test. -/
def isProblematicInjection (scopeName : String) : Bool :=
  PROBLEMATIC_INJECTIONS.contains scopeName ||
  strIncludes scopeName "documentation.injection" ||
  testJsdocInjection scopeName

/-- Model of path.join at the level this module depends on: no claim
inspects the inside of a joined location, so normalization is not
reproduced. -/
def pathJoin (a b : String) : String := a ++ "/" ++ b

/-- Injection-index append of _handleGrammarExtensionPointUser: creates the
target entry on demand and pushes the injecting scope name at the end. -/
def addInjection (st : TextMateServiceState) (injectScope scopeName : String) :
    TextMateServiceState :=
  let upd : String → Option (List String) := fun t =>
    if t = injectScope then some (((st.injections injectScope).getD []) ++ [scopeName])
    else st.injections t
  { st with injections := upd }

/-- Injected embedded-language append of _handleGrammarExtensionPointUser:
creates the target entry on demand and pushes the raw embedded-language map
at the end. -/
def addInjectedEmbeddedLanguages (st : TextMateServiceState) (injectScope : String)
    (el : List (String × JsVal)) : TextMateServiceState :=
  let upd : String → Option (List (List (String × JsVal))) := fun t =>
    if t = injectScope then
      some (((st.injectedEmbeddedLanguages injectScope).getD []) ++ [el])
    else st.injectedEmbeddedLanguages t
  { st with injectedEmbeddedLanguages := upd }

/-- Scope registration step of _handleGrammarExtensionPointUser: registers
the contribution under its scope name at the joined grammar location. -/
def registerStep (st : TextMateServiceState) (extensionLocation : String)
    (syn : ITMSyntaxExtensionPoint) : TextMateServiceState :=
  let reg :=
    TMScopeRegistry.register st.scopeRegistry syn.scopeName
      (pathJoin extensionLocation syn.path) syn.embeddedLanguages syn.tokenTypes
  { st with scopeRegistry := reg }

/-- Injection step of _handleGrammarExtensionPointUser: when injectTo is
present, appends the scope name to every target entry, and, when an
embedded-language map is also present, appends that raw map to every target
entry of the injected embedded-language index. -/
def injectStep (st : TextMateServiceState) (syn : ITMSyntaxExtensionPoint) :
    TextMateServiceState :=
  match syn.injectTo with
  | none => st
  | some injectTo =>
    let st1 := injectTo.foldl (fun s t => addInjection s t syn.scopeName) st
    match syn.embeddedLanguages with
    | none => st1
    | some el => injectTo.foldl (fun s t => addInjectedEmbeddedLanguages s t el) st1

/-- Language-map step of _handleGrammarExtensionPointUser: when the language
field is truthy (present and not the empty string), maps it to the scope
name. -/
def languageStep (st : TextMateServiceState) (syn : ITMSyntaxExtensionPoint) :
    TextMateServiceState :=
  match syn.language with
  | none => st
  | some modeId =>
    if modeId = "" then st
    else
      let upd : String → Option String := fun l =>
        if l = modeId then some syn.scopeName else st.languageToScope l
      { st with languageToScope := upd }

/-- _handleGrammarExtensionPointUser of TextMateService: contributions whose
scope name passes the problematic-injection filter are skipped entirely;
the rest are registered, added to the injection indexes, and recorded in the
language to scope map. -/
def _handleGrammarExtensionPointUser (st : TextMateServiceState)
    (extensionLocation : String) (syn : ITMSyntaxExtensionPoint) :
    TextMateServiceState :=
  if isProblematicInjection syn.scopeName then st
  else languageStep (injectStep (registerStep st extensionLocation syn) syn) syn

/-- Map.set on the language-name table of the service. -/
def setLanguage (st : TextMateServiceState) (name : String) (id : Nat) :
    TextMateServiceState :=
  { st with languages := fun n => if n = name then some id else st.languages n }

/-- _parseExtensions of TextMateService: for each extension, record its
declared languages in the language table (later entries overwrite earlier
ones for the same name), then process each grammar contribution. -/
def _parseExtensions (exts : List IGrammarExtensions) : TextMateServiceState :=
  exts.foldl
    (fun st ext =>
      ext.value.foldl
        (fun s g => _handleGrammarExtensionPointUser s ext.extensionLocation g)
        (ext.languages.foldl (fun s lang => setLanguage s lang.name lang.id) st))
    TextMateServiceState.initial

/-- Repeated _handleGrammarExtensionPointUser calls over a sequence of
(extension location, contribution) pairs. -/
def processContributions (st : TextMateServiceState) :
    List (String × ITMSyntaxExtensionPoint) → TextMateServiceState
  | [] => st
  | c :: rest => processContributions (_handleGrammarExtensionPointUser st c.1 c.2) rest

/- ===== getInjections ===== -/

/-- The getInjections callback handed to the vscode-textmate Registry in
_getOrCreateGrammarRegistry: source.ts and source.tsx get no injections at
all; otherwise the registered list is filtered by the problematic-injection
criteria and an emptied list is turned back into undefined. -/
def getInjections (injections : String → Option (List String))
    (scopeName : String) : Option (List String) :=
  if scopeName = "source.ts" ∨ scopeName = "source.tsx" then none
  else
    match injections scopeName with
    | none => none
    | some injs =>
      if 0 < (injs.filter (fun inj => !isProblematicInjection inj)).length then
        some (injs.filter (fun inj => !isProblematicInjection inj))
      else none

/- ===== embedded language resolution and grammar creation ===== -/

/-- _resolveEmbeddedLanguages of TextMateService: each entry whose value is a
string with a truthy id in the language table survives with that id; every
other entry is dropped.  The zero test models the JavaScript truthiness
check on the looked-up id, and a non-string value never hits in the
string-keyed Map. -/
def _resolveEmbeddedLanguages (languages : String → Option Nat)
    (embeddedLanguages : List (String × JsVal)) : List (String × Nat) :=
  embeddedLanguages.filterMap (fun p =>
    match p.2 with
    | JsVal.str language =>
      match languages language with
      | some languageId => if languageId = 0 then none else some (p.1, languageId)
      | none => none
    | JsVal.other => none)

/-- JavaScript object assignment obj[key] = v on an association list with
unique keys: overwrite in place when the key exists, append otherwise. -/
def mapInsert (m : List (String × Nat)) (p : String × Nat) : List (String × Nat) :=
  if m.any (fun q => q.1 = p.1) then
    m.map (fun q => if q.1 = p.1 then (q.1, p.2) else q)
  else m ++ [p]

/-- Merge loop of _createGrammar: copies every entry of one resolved injected
embedded-language map into the accumulated map. -/
def mergeEmbedded (acc : List (String × Nat)) (injected : List (String × Nat)) :
    List (String × Nat) :=
  injected.foldl (fun m p => mapInsert m p) acc

/-- ICreateGrammarResult as far as this module computes it.  The grammar
object and initial stack state come from the external vscode-textmate
Registry; what the service itself produces is the language id, the scope
name, the merged resolved embedded-language map and the token-type map it
passes to loadGrammarWithConfiguration, and the containsEmbeddedLanguages
flag. -/
structure ICreateGrammarResult where
  languageId : Nat
  scopeName : String
  embeddedLanguages : List (String × Nat)
  tokenTypes : List (String × StandardTokenType)
  containsEmbeddedLanguages : Bool
deriving DecidableEq

/-- _createGrammar of TextMateService: resolves the scope of the language
(empty string when unmapped, as the JavaScript or-empty-string does),
returns null when no registration exists (the commented-out throw was
deliberately replaced), and otherwise resolves and merges embedded
languages, picks the language id (falling back to PlainText = 1 for an
absent or zero id, as the JavaScript or does), and hands the configuration
to the external registry. -/
def _createGrammar (st : TextMateServiceState) (modeId : String) :
    Option ICreateGrammarResult :=
  let scopeName := (st.languageToScope modeId).getD ""
  match TMScopeRegistry.getLanguageRegistration st.scopeRegistry scopeName with
  | none => none
  | some languageRegistration =>
    let resolved :=
      _resolveEmbeddedLanguages st.languages
        (languageRegistration.embeddedLanguages.map (fun p => (p.1, JsVal.str p.2)))
    let merged :=
      match st.injectedEmbeddedLanguages scopeName with
      | none => resolved
      | some raws =>
        raws.foldl
          (fun acc raw => mergeEmbedded acc (_resolveEmbeddedLanguages st.languages raw))
          resolved
    let languageId :=
      match st.languages modeId with
      | some id => if id = 0 then 1 else id
      | none => 1
    some
      { languageId := languageId
        scopeName := scopeName
        embeddedLanguages := merged
        tokenTypes := languageRegistration.tokenTypes
        containsEmbeddedLanguages := decide (0 < merged.length) }

/-- createGrammar of TextMateService: null propagates, otherwise the grammar
of the result is returned (the grammar object being external, the result
record stands for it here). -/
def createGrammar (st : TextMateServiceState) (modeId : String) :
    Option ICreateGrammarResult :=
  match _createGrammar st modeId with
  | none => none
  | some r => some r

/- ===== doLoadOnigasm ===== -/

/-- Environment of one pattern-engine initialization: the outcome the
expensive load would produce in this process (success, or failure with a
message). -/
structure OnigInitEnv where
  initResult : Except String Unit

/-- doLoadOnigasm of ext.ts over the module-level onigLibPromise cell: when a
promise is already stored it is returned as is and no initialization starts;
otherwise the initialization is started, its (possibly failed) outcome is
stored, and that stored promise is returned.  The Bool records whether this
call started an initialization; a failed outcome is never cleared. -/
def doLoadOnigasm (env : OnigInitEnv) (onigLibPromise : Option (Except String Unit)) :
    Option (Except String Unit) × Except String Unit × Bool :=
  match onigLibPromise with
  | some p => (some p, p, false)
  | none => (some env.initResult, env.initResult, true)

/-- A sequence of doLoadOnigasm calls from a given cell state: returns the
final cell state and, per call, the returned outcome and whether that call
started an initialization. -/
def doLoadOnigasmTrace (env : OnigInitEnv) :
    Nat → Option (Except String Unit) →
    Option (Except String Unit) × List (Except String Unit × Bool)
  | 0, st => (st, [])
  | n + 1, st =>
    let step := doLoadOnigasm env st
    let rest := doLoadOnigasmTrace env n step.1
    (rest.1, (step.2.1, step.2.2) :: rest.2)

/- ===== getCanLanguageIds ===== -/

/-- The reduce over grammar extensions in getCanLanguageIds: collects every
truthy language field of every grammar contribution (absent and empty-string
values are dropped by the truthiness filter). -/
def declaredLanguages (grammarExtensions : List IGrammarExtensions) : List String :=
  grammarExtensions.foldl
    (fun prev item =>
      prev ++ item.value.filterMap (fun grammar =>
        match grammar.language with
        | none => none
        | some l => if l = "" then none else some l))
    []

/-- BlackLanguage of getCanLanguageIds: languages excluded from comment
translation. -/
def BlackLanguage : List String := ["log", "Log", "code-runner-output", "markdown"]

/-- Spread of a JavaScript Set built from an array: keeps the first
occurrence of each element, in order.  The seen accumulator holds the
elements already emitted. -/
def setDedupAux (seen : List String) : List String → List String
  | [] => []
  | x :: xs =>
    if x ∈ seen then setDedupAux seen xs
    else x :: setDedupAux (x :: seen) xs

/-- getCanLanguageIds of ext.ts, as a function of the collected grammar
extensions (the setContext command is an external side effect): declared
languages, plus the four explicit TypeScript and JavaScript ids, minus the
blacklist, deduplicated. -/
def getCanLanguageIds (grammarExtensions : List IGrammarExtensions) : List String :=
  let canLanguages :=
    declaredLanguages grammarExtensions ++
      ["typescript", "typescriptreact", "javascript", "javascriptreact"]
  setDedupAux [] (canLanguages.filter (fun v => !decide (v ∈ BlackLanguage)))

/- ===== concrete inputs used by witnesses and counterexamples ===== -/

/-- Package manifest with a grammars array declaring the language name dup,
at extension path A. -/
def c5pkgA : PackageInput :=
  { contributes := some { grammars := some [], languages := some ["dup"] }
    extensionPath := "/extA" }

/-- Package manifest with a grammars array declaring the language name dup,
at extension path B. -/
def c5pkgB : PackageInput :=
  { contributes := some { grammars := some [], languages := some ["dup"] }
    extensionPath := "/extB" }

/-- Injection index with entries registered for source.js only. -/
def c3injections : String → Option (List String) :=
  fun s =>
    if s = "source.js" then
      some ["documentation.injection.js.jsx", "codelens.injection", "jsdoc.np.injection"]
    else none

/-- Language table assigning ids 2 and 3, as the extraction pipeline does. -/
def c6languages : String → Option Nat :=
  fun n => if n = "typescript" then some 2 else if n = "css" then some 3 else none

/-- Embedded-language map with one resolvable and one unresolvable name. -/
def c6embedded : List (String × String) :=
  [("meta.embedded.block.ts", "typescript"), ("meta.embedded.block.lua", "lua")]

/-- A problematic grammar contribution (its scope name is in the
PROBLEMATIC_INJECTIONS list). -/
def c9problem : ITMSyntaxExtensionPoint :=
  { language := some "typescript"
    scopeName := "documentation.injection.ts"
    path := "./grammars/doc.json"
    embeddedLanguages := some [("meta.embedded.ts", JsVal.str "typescript")]
    tokenTypes := none
    injectTo := some ["source.ts"] }

/-- An ordinary grammar contribution. -/
def c9normal : ITMSyntaxExtensionPoint :=
  { language := some "python"
    scopeName := "source.python"
    path := "./grammars/python.json"
    embeddedLanguages := none
    tokenTypes := none
    injectTo := some ["text.html.basic"] }

/-- A contribution sequence mixing a problematic and an ordinary entry. -/
def c9contribs : List (String × ITMSyntaxExtensionPoint) :=
  [("/ext", c9problem), ("/ext", c9normal)]

/-- Absence of a scope name from the three structures a contribution would
write it into: the name is not a registered scope, appears in no injection
list, and is the target of no language mapping. -/
def NoTraceOf (p : String) (st : TextMateServiceState) : Prop :=
  st.scopeRegistry p = none ∧
  (∀ t l, st.injections t = some l → ¬ p ∈ l) ∧
  (∀ m, ¬ st.languageToScope m = some p)

/- ===== theorems ===== -/

/-- C2: for the target scopes source.ts and source.tsx, the injection query
returns no injections in every state of the injection index, whatever
entries have been registered for them and whenever they were registered. -/
theorem c2_ts_tsx_injections_always_suppressed :
    ∀ injections : String → Option (List String),
      getInjections injections "source.ts" = none ∧
      getInjections injections "source.tsx" = none := by
  intro injections
  constructor <;> rfl

/-- C4: registering a scope name a second time with a different location
replaces the prior descriptor entirely; the lookup afterwards returns the
descriptor built from the second location, embedded-language map and
token-type map, and the stored grammar location is the second one. -/
theorem c4_register_last_write_wins (r : TMScopeRegistry) (scopeName loc1 loc2 : String)
    (el1 el2 : Option (List (String × JsVal)))
    (tt1 tt2 : Option (List (String × String)))
    (hloc : loc1 ≠ loc2) :
    TMScopeRegistry.getLanguageRegistration
        (TMScopeRegistry.register (TMScopeRegistry.register r scopeName loc1 el1 tt1)
          scopeName loc2 el2 tt2) scopeName
      = some (mkTMLanguageRegistration scopeName loc2 el2 tt2) ∧
    TMScopeRegistry.getGrammarLocation
        (TMScopeRegistry.register (TMScopeRegistry.register r scopeName loc1 el1 tt1)
          scopeName loc2 el2 tt2) scopeName
      = loc2 := by
  constructor
  · simp [TMScopeRegistry.getLanguageRegistration, TMScopeRegistry.register]
  · simp [TMScopeRegistry.getGrammarLocation, TMScopeRegistry.register,
      mkTMLanguageRegistration]

/-- Witness for C4 at a concrete registry and two different locations. -/
theorem c4_register_last_write_wins_witness :
    ("locA" ≠ "locB") ∧
    TMScopeRegistry.getLanguageRegistration
        (TMScopeRegistry.register
          (TMScopeRegistry.register TMScopeRegistry.empty "source.foo" "locA" none none)
          "source.foo" "locB" none none) "source.foo"
      = some (mkTMLanguageRegistration "source.foo" "locB" none none) :=
  ⟨by decide,
    (c4_register_last_write_wins TMScopeRegistry.empty "source.foo" "locA" "locB"
      none none none none (by decide)).1⟩

/-- C1: when the scope resolved for the requested language has no
registration, grammar creation returns null (and, being a total function of
the modelled state, never throws). -/
theorem c1_createGrammar_none_when_unregistered (st : TextMateServiceState)
    (modeId : String)
    (h : TMScopeRegistry.getLanguageRegistration st.scopeRegistry
        ((st.languageToScope modeId).getD "") = none) :
    _createGrammar st modeId = none ∧ createGrammar st modeId = none := by
  have h1 : _createGrammar st modeId = none := by
    unfold _createGrammar
    simp only [h]
  exact ⟨h1, by unfold createGrammar; rw [h1]⟩

/-- Witness for C1: the freshly constructed service has no registration for
any scope, so requesting a grammar for python yields null. -/
theorem c1_createGrammar_none_when_unregistered_witness :
    (TMScopeRegistry.getLanguageRegistration TextMateServiceState.initial.scopeRegistry
        ((TextMateServiceState.initial.languageToScope "python").getD "") = none) ∧
    createGrammar TextMateServiceState.initial "python" = none :=
  ⟨rfl, (c1_createGrammar_none_when_unregistered TextMateServiceState.initial "python" rfl).2⟩

/-- Helper for C7: once a promise is stored in the cell, every later call
returns exactly that promise and never starts another initialization. -/
theorem doLoadOnigasmTrace_cached (env : OnigInitEnv) :
    ∀ (n : Nat) (p : Except String Unit),
      doLoadOnigasmTrace env n (some p) = (some p, List.replicate n (p, false)) := by
  intro n
  induction n with
  | zero => intro p; rfl
  | succ k ih =>
    intro p
    simp [doLoadOnigasmTrace, doLoadOnigasm, ih, List.replicate_succ]

/-- C7: starting from the empty cell, a sequence of n + 1 calls to the
pattern-engine initialization starts the expensive initialization exactly
once (on the first call), stores its outcome, and hands every call the same
stored outcome; in particular a failed outcome is returned to all later
calls without re-running the initialization. -/
theorem c7_doLoadOnigasm_initializes_once (env : OnigInitEnv) (n : Nat) :
    doLoadOnigasmTrace env (n + 1) none =
      (some env.initResult,
        (env.initResult, true) :: List.replicate n (env.initResult, false)) := by
  simp [doLoadOnigasmTrace, doLoadOnigasm, doLoadOnigasmTrace_cached]

/-- C10: grammar registration construction is total and silent, its stored
embedded-language map holds exactly the entries of the input whose value is
a string, and its stored token-type map holds exactly the entries whose
value is one of the three recognized strings, mapped to the corresponding
token type; in particular no entry is ever mapped to the regex token type. -/
theorem c10_registration_normalizes_inputs (scopeName grammarLocation : String)
    (el : List (String × JsVal)) (tt : List (String × String)) :
    (∀ scope language,
      (scope, language) ∈
          (mkTMLanguageRegistration scopeName grammarLocation (some el) (some tt)).embeddedLanguages
        ↔ (scope, JsVal.str language) ∈ el) ∧
    (∀ scope ty,
      (scope, ty) ∈
          (mkTMLanguageRegistration scopeName grammarLocation (some el) (some tt)).tokenTypes
        ↔ (((scope, "string") ∈ tt ∧ ty = StandardTokenType.string) ∨
           ((scope, "other") ∈ tt ∧ ty = StandardTokenType.other) ∨
           ((scope, "comment") ∈ tt ∧ ty = StandardTokenType.comment))) ∧
    ((mkTMLanguageRegistration scopeName grammarLocation (some el) (some tt)).tokenTypes.filter
        (fun p => p.2 == StandardTokenType.regex) = []) := by
  refine ⟨?_, ?_, ?_⟩
  · intro scope language
    simp only [mkTMLanguageRegistration, List.mem_filterMap]
    constructor
    · rintro ⟨⟨s, v⟩, hmem, hf⟩
      cases v with
      | str l =>
        simp only [Option.some.injEq, Prod.mk.injEq] at hf
        obtain ⟨rfl, rfl⟩ := hf
        exact hmem
      | other => simp at hf
    · intro hmem
      exact ⟨(scope, JsVal.str language), hmem, rfl⟩
  · intro scope ty
    simp only [mkTMLanguageRegistration, List.mem_filterMap]
    constructor
    · rintro ⟨⟨s, v⟩, hmem, hf⟩
      split_ifs at hf with h1 h2 h3
      · simp only [Option.some.injEq, Prod.mk.injEq] at hf
        obtain ⟨rfl, rfl⟩ := hf
        exact Or.inl ⟨h1 ▸ hmem, rfl⟩
      · simp only [Option.some.injEq, Prod.mk.injEq] at hf
        obtain ⟨rfl, rfl⟩ := hf
        exact Or.inr (Or.inl ⟨h2 ▸ hmem, rfl⟩)
      · simp only [Option.some.injEq, Prod.mk.injEq] at hf
        obtain ⟨rfl, rfl⟩ := hf
        exact Or.inr (Or.inr ⟨h3 ▸ hmem, rfl⟩)
    · rintro (⟨hmem, rfl⟩ | ⟨hmem, rfl⟩ | ⟨hmem, rfl⟩)
      · exact ⟨(scope, "string"), hmem, by simp⟩
      · exact ⟨(scope, "other"), hmem, by simp⟩
      · exact ⟨(scope, "comment"), hmem, by simp⟩
  · rw [List.filter_eq_nil_iff]
    rintro ⟨s, ty⟩ hmem
    simp only [mkTMLanguageRegistration, List.mem_filterMap] at hmem
    obtain ⟨⟨s2, v⟩, hv, hf⟩ := hmem
    split_ifs at hf <;> simp only [Option.some.injEq, Prod.mk.injEq] at hf
    · obtain ⟨rfl, rfl⟩ := hf
      simp
    · obtain ⟨rfl, rfl⟩ := hf
      simp
    · obtain ⟨rfl, rfl⟩ := hf
      simp

/-- Helper: returning a positive-length list and mapping an emptied list back
to none is the same as branching on emptiness. -/
theorem posLength_ite_eq_isEmpty_ite {α : Type} (L : List α) :
    (if 0 < L.length then some L else none) = (if L.isEmpty then none else some L) := by
  cases L <;> simp

/-- C3: for every target scope other than the two globally suppressed ones,
the injection query filters the registered list by the literal denylist, the
documentation-dot-injection substring and the jsdoc-dot-star-injection
regex, and returns none instead of an emptied list; moreover the query never
returns an empty non-none list for any state and any scope. -/
theorem c3_injection_filter_and_no_empty_list
    (injections : String → Option (List String)) (scopeName : String)
    (injs : List String)
    (hts : scopeName ≠ "source.ts") (htsx : scopeName ≠ "source.tsx")
    (hreg : injections scopeName = some injs) :
    (getInjections injections scopeName =
      (if (injs.filter (fun inj =>
            !(PROBLEMATIC_INJECTIONS.contains inj ||
              strIncludes inj "documentation.injection" ||
              testJsdocInjection inj))).isEmpty
       then none
       else some (injs.filter (fun inj =>
            !(PROBLEMATIC_INJECTIONS.contains inj ||
              strIncludes inj "documentation.injection" ||
              testJsdocInjection inj))))) ∧
    (∀ (m : String → Option (List String)) (s : String), getInjections m s ≠ some []) := by
  constructor
  · have key : getInjections injections scopeName =
        (if 0 < (injs.filter (fun inj => !isProblematicInjection inj)).length then
          some (injs.filter (fun inj => !isProblematicInjection inj))
        else none) := by
      unfold getInjections
      rw [if_neg (not_or.mpr ⟨hts, htsx⟩), hreg]
    rw [key]
    simp only [isProblematicInjection]
    exact posLength_ite_eq_isEmpty_ite _
  · intro m s h
    unfold getInjections at h
    split at h
    · exact Option.noConfusion h
    · split at h
      · exact Option.noConfusion h
      · split at h
        · rename_i hlen
          obtain h2 := Option.some.inj h
          rw [h2] at hlen
          simp at hlen
        · exact Option.noConfusion h

/-- Witness for C3: a scope other than source.ts and source.tsx with three
registered injections, of which the literal, substring and regex criteria
remove two. -/
theorem c3_injection_filter_and_no_empty_list_witness :
    ("source.js" ≠ "source.ts") ∧ ("source.js" ≠ "source.tsx") ∧
    (c3injections "source.js" =
      some ["documentation.injection.js.jsx", "codelens.injection", "jsdoc.np.injection"]) ∧
    getInjections c3injections "source.js" = some ["codelens.injection"] := by
  refine ⟨by decide, by decide, rfl, ?_⟩
  have h := (c3_injection_filter_and_no_empty_list c3injections "source.js"
    ["documentation.injection.js.jsx", "codelens.injection", "jsdoc.np.injection"]
    (by decide) (by decide) rfl).1
  rw [h]
  rfl

/-- C6: under the process-wide invariant that the language table only holds
positive identifiers, resolving an embedded-language map keeps exactly the
entries whose language name has an identifier in the table, pairs them with
that identifier, and silently drops every other entry. -/
theorem c6_resolve_embedded_drops_unresolvable
    (languages : String → Option Nat) (el : List (String × String))
    (hpos : ∀ n i, languages n = some i → 0 < i) :
    _resolveEmbeddedLanguages languages (el.map (fun p => (p.1, JsVal.str p.2)))
      = el.filterMap (fun p => (languages p.2).map (fun id => (p.1, id))) := by
  induction el with
  | nil => rfl
  | cons p rest ih =>
    simp only [List.map_cons, _resolveEmbeddedLanguages, List.filterMap_cons] at ih ⊢
    cases hl : languages p.2 with
    | none => simpa [hl] using ih
    | some i =>
      have hi : ¬ i = 0 := by
        have := hpos p.2 i hl
        omega
      simpa [hl, hi] using ih

/-- Witness for C6 at a concrete positive language table and an
embedded-language map with one resolvable and one unresolvable name. -/
theorem c6_resolve_embedded_drops_unresolvable_witness :
    (∀ n i, c6languages n = some i → 0 < i) ∧
    _resolveEmbeddedLanguages c6languages (c6embedded.map (fun p => (p.1, JsVal.str p.2)))
      = c6embedded.filterMap (fun p => (c6languages p.2).map (fun id => (p.1, id))) := by
  have hpos : ∀ n i, c6languages n = some i → 0 < i := by
    intro n i h
    by_cases h1 : n = "typescript"
    · simp [c6languages, h1] at h
      omega
    · by_cases h2 : n = "css"
      · simp [c6languages, h1, h2] at h
        omega
      · simp [c6languages, h1, h2] at h
  exact ⟨hpos, c6_resolve_embedded_drops_unresolvable c6languages c6embedded hpos⟩

/-- Helper for C5: the ids handed out over one languages array are the
consecutive range starting at the given id, and the returned next id sits
right after it. -/
theorem assignIds_spec (names : List String) : ∀ s : Nat,
    ((assignIds names s).1.map (fun l => l.id) = List.range' s names.length) ∧
    (assignIds names s).2 = s + names.length := by
  induction names with
  | nil => intro s; exact ⟨rfl, rfl⟩
  | cons n rest ih =>
    intro s
    constructor
    · simp only [assignIds, List.map_cons, List.length_cons]
      rw [(ih (s + 1)).1]
      rfl
    · simp only [assignIds, List.length_cons]
      rw [(ih (s + 1)).2]
      omega

/-- Helper for C5: over the whole extraction, the assigned ids form the
consecutive range starting at the given id, and the returned next id sits
right after all of them. -/
theorem extractGrammarExtensions_ids (inner : List PackageInput) : ∀ startId : Nat,
    ((allAssignedLanguages (extractGrammarExtensions inner startId).1).map (fun l => l.id)
      = List.range' startId
          (allAssignedLanguages (extractGrammarExtensions inner startId).1).length) ∧
    ((extractGrammarExtensions inner startId).2
      = startId + (allAssignedLanguages (extractGrammarExtensions inner startId).1).length) := by
  induction inner with
  | nil => intro s; exact ⟨rfl, rfl⟩
  | cons p rest ih =>
    intro s
    cases hc : p.contributes with
    | none =>
      simp only [extractGrammarExtensions, hc]
      exact ih s
    | some c =>
      cases hg : c.grammars with
      | none =>
        simp only [extractGrammarExtensions, hc, hg]
        exact ih s
      | some gs =>
        have hA1 := (assignIds_spec (c.languages.getD []) s).1
        have hA2 := (assignIds_spec (c.languages.getD []) s).2
        have hlenA : (assignIds (c.languages.getD []) s).1.length
            = (c.languages.getD []).length := by
          have h := congrArg List.length hA1
          simpa using h
        have hT := ih (assignIds (c.languages.getD []) s).2
        simp only [extractGrammarExtensions, hc, hg, allAssignedLanguages, List.map_cons,
          List.flatten_cons, List.map_append, List.length_append] at hT ⊢
        rw [hA2] at hT
        constructor
        · rw [hA2, hA1, hT.1, hlenA]
          have hr := List.range'_append s (c.languages.getD []).length
            ((List.map (fun e => e.languages)
              (extractGrammarExtensions rest (s + (c.languages.getD []).length)).1).flatten.length) 1
          simp only [one_mul] at hr
          rw [hr]
          congr 1
          omega
        · rw [hA2, hT.2, hlenA]
          omega

/-- C5 (amended): the extraction assigns to the language entries of the kept
packages exactly the consecutive identifiers startId, startId + 1, ... in
encounter order (hence strictly increasing and all at least startId, so ids
zero and one are never assigned when extraction starts at two, as the
pipeline does), and returns the next free identifier. -/
theorem c5_amended_sequential_id_assignment (inner : List PackageInput) (startId : Nat) :
    ((allAssignedLanguages (extractGrammarExtensions inner startId).1).map (fun l => l.id)
      = List.range' startId
          (allAssignedLanguages (extractGrammarExtensions inner startId).1).length) ∧
    ((extractGrammarExtensions inner startId).2
      = startId + (allAssignedLanguages (extractGrammarExtensions inner startId).1).length) ∧
    ((allAssignedLanguages (extractGrammarExtensions inner startId).1).all
        (fun l => decide (startId ≤ l.id)) = true) := by
  obtain ⟨h1, h2⟩ := extractGrammarExtensions_ids inner startId
  refine ⟨h1, h2, ?_⟩
  rw [List.all_eq_true]
  intro l hl
  rw [decide_eq_true_eq]
  have hmem : l.id ∈ (allAssignedLanguages (extractGrammarExtensions inner startId).1).map
      (fun l => l.id) := List.mem_map_of_mem _ hl
  rw [h1] at hmem
  exact (List.mem_range'_1.mp hmem).1

/-- C5 counterexample: two packages both declare the language name dup; the
first encounter assigns id 2, the second assigns id 3, and the language
table of the constructed service maps dup to 3 — the identifier of the last
encounter, not of the first. -/
theorem c5_counterexample_duplicate_name_rebinds :
    ((_parseExtensions (extractGrammarExtensions [c5pkgA, c5pkgB] 2).1).languages "dup"
      = some 3) ∧
    (((allAssignedLanguages (extractGrammarExtensions [c5pkgA, c5pkgB] 2).1).find?
        (fun l => l.name == "dup")).map (fun l => l.id) = some 2) ∧
    ((_parseExtensions (extractGrammarExtensions [c5pkgA, c5pkgB] 2).1).languages "dup"
      ≠ ((allAssignedLanguages (extractGrammarExtensions [c5pkgA, c5pkgB] 2).1).find?
          (fun l => l.name == "dup")).map (fun l => l.id)) := by
  refine ⟨rfl, rfl, by decide⟩

/-- Helper for C8: the spread of a Set keeps exactly the elements not already
seen. -/
theorem mem_setDedupAux (v : String) : ∀ (l seen : List String),
    v ∈ setDedupAux seen l ↔ (v ∈ l ∧ ¬ v ∈ seen) := by
  intro l
  induction l with
  | nil =>
    intro seen
    simp [setDedupAux]
  | cons x xs ih =>
    intro seen
    by_cases hx : x ∈ seen
    · rw [setDedupAux, if_pos hx, ih]
      constructor
      · rintro ⟨h1, h2⟩
        exact ⟨List.mem_cons_of_mem _ h1, h2⟩
      · rintro ⟨h1, h2⟩
        rcases List.mem_cons.mp h1 with rfl | h1
        · exact absurd hx h2
        · exact ⟨h1, h2⟩
    · rw [setDedupAux, if_neg hx]
      constructor
      · intro h
        rcases List.mem_cons.mp h with rfl | h1
        · exact ⟨List.mem_cons_self _ _, hx⟩
        · obtain ⟨hm, hs⟩ := (ih (x :: seen)).mp h1
          refine ⟨List.mem_cons_of_mem _ hm, ?_⟩
          intro hv
          exact hs (List.mem_cons_of_mem _ hv)
      · rintro ⟨h1, h2⟩
        rcases List.mem_cons.mp h1 with rfl | h1
        · exact List.mem_cons_self _ _
        · by_cases hvx : v = x
          · subst hvx
            exact List.mem_cons_self _ _
          · refine List.mem_cons_of_mem _ ((ih (x :: seen)).mpr ⟨h1, ?_⟩)
            intro hv
            rcases List.mem_cons.mp hv with h | h
            · exact hvx h
            · exact h2 h

/-- C8 (amended): a language name appears in the availability list exactly
when it is declared as the language of some collected grammar contribution
or is one of the four explicitly added TypeScript and JavaScript
identifiers, and it is not blacklisted. -/
theorem c8_amended_availability_membership (exts : List IGrammarExtensions) (v : String) :
    v ∈ getCanLanguageIds exts ↔
      ((v ∈ declaredLanguages exts ∨
        v ∈ ["typescript", "typescriptreact", "javascript", "javascriptreact"]) ∧
       ¬ v ∈ BlackLanguage) := by
  unfold getCanLanguageIds
  rw [mem_setDedupAux]
  simp [List.mem_filter, List.mem_append]
  tauto

/-- C8 counterexample: with no grammar extensions collected at all, no
contribution declares any language, yet typescript is in the availability
list. -/
theorem c8_counterexample_typescript_without_grammar :
    "typescript" ∈ getCanLanguageIds [] ∧
    declaredLanguages ([] : List IGrammarExtensions) = [] := by
  constructor
  · decide
  · rfl

/-- Helper for C9: a problematic contribution leaves the service state
untouched. -/
theorem handleGrammar_skip (st : TextMateServiceState) (loc : String)
    (syn : ITMSyntaxExtensionPoint) (h : isProblematicInjection syn.scopeName = true) :
    _handleGrammarExtensionPointUser st loc syn = st := by
  unfold _handleGrammarExtensionPointUser
  rw [if_pos h]

/-- Helper for C9: processing a contribution list gives the same final state
as processing the list with the problematic contributions removed. -/
theorem processContributions_filter_problematic
    (l : List (String × ITMSyntaxExtensionPoint)) : ∀ st,
    processContributions st l =
      processContributions st (l.filter (fun c => !isProblematicInjection c.2.scopeName)) := by
  induction l with
  | nil => intro st; rfl
  | cons c rest ih =>
    intro st
    rw [List.filter_cons]
    by_cases h : isProblematicInjection c.2.scopeName = true
    · rw [if_neg (by simp [h])]
      show processContributions (_handleGrammarExtensionPointUser st c.1 c.2) rest = _
      rw [handleGrammar_skip st c.1 c.2 h]
      exact ih st
    · rw [if_pos (by simp [Bool.not_eq_true] at h ⊢; exact h)]
      show processContributions (_handleGrammarExtensionPointUser st c.1 c.2) rest = _
      exact ih _

/-- Helper for C9: the projection equations of addInjection. -/
theorem addInjection_injections (st : TextMateServiceState) (tg x t : String) :
    (addInjection st tg x).injections t =
      (if t = tg then some (((st.injections tg).getD []) ++ [x]) else st.injections t) := rfl

/-- Helper for C9: the addInjection fold over the targets changes neither the
scope registry nor the language map. -/
theorem foldl_addInjection_fields (x : String) : ∀ (targets : List String)
    (st : TextMateServiceState),
    ((targets.foldl (fun s t => addInjection s t x) st).scopeRegistry = st.scopeRegistry) ∧
    ((targets.foldl (fun s t => addInjection s t x) st).languageToScope = st.languageToScope) := by
  intro targets
  induction targets with
  | nil => intro st; exact ⟨rfl, rfl⟩
  | cons tg rest ih =>
    intro st
    rw [List.foldl_cons]
    exact ih (addInjection st tg x)

/-- Helper for C9: if a name differs from the pushed scope name and appears
in no injection list, the addInjection fold keeps it out of every injection
list. -/
theorem foldl_addInjection_notMem (x p : String) (hx : ¬ x = p) :
    ∀ (targets : List String) (st : TextMateServiceState),
      (∀ t l, st.injections t = some l → ¬ p ∈ l) →
      ∀ t l, (targets.foldl (fun s t => addInjection s t x) st).injections t = some l →
        ¬ p ∈ l := by
  intro targets
  induction targets with
  | nil => intro st h; exact h
  | cons tg rest ih =>
    intro st h
    rw [List.foldl_cons]
    apply ih
    intro t l hl
    rw [addInjection_injections] at hl
    by_cases ht : t = tg
    · rw [if_pos ht] at hl
      obtain rfl := (Option.some.inj hl).symm
      intro hp
      rcases List.mem_append.mp hp with h1 | h1
      · cases hg : st.injections tg with
        | none => rw [hg] at h1; simp at h1
        | some l0 =>
          rw [hg] at h1
          exact h tg l0 hg h1
      · simp at h1
        exact hx h1.symm
    · rw [if_neg ht] at hl
      exact h t l hl

/-- Helper for C9: the injected-embedded-language fold changes none of the
three structures a scope name could surface in. -/
theorem foldl_addInjectedEmbedded_fields (el : List (String × JsVal)) :
    ∀ (targets : List String) (st : TextMateServiceState),
    ((targets.foldl (fun s t => addInjectedEmbeddedLanguages s t el) st).scopeRegistry
      = st.scopeRegistry) ∧
    ((targets.foldl (fun s t => addInjectedEmbeddedLanguages s t el) st).injections
      = st.injections) ∧
    ((targets.foldl (fun s t => addInjectedEmbeddedLanguages s t el) st).languageToScope
      = st.languageToScope) := by
  intro targets
  induction targets with
  | nil => intro st; exact ⟨rfl, rfl, rfl⟩
  | cons tg rest ih =>
    intro st
    rw [List.foldl_cons]
    exact ih (addInjectedEmbeddedLanguages st tg el)

/-- Helper for C9: one non-problematic contribution cannot introduce a
problematic scope name into the registry, the injection lists or the
language map. -/
theorem handle_preserves_NoTraceOf (p loc : String) (syn : ITMSyntaxExtensionPoint)
    (st : TextMateServiceState) (hp : isProblematicInjection p = true)
    (hinv : NoTraceOf p st) : NoTraceOf p (_handleGrammarExtensionPointUser st loc syn) := by
  by_cases hs : isProblematicInjection syn.scopeName = true
  · rw [handleGrammar_skip st loc syn hs]
    exact hinv
  · have hne : ¬ syn.scopeName = p := by
      intro h
      rw [h, hp] at hs
      exact hs rfl
    unfold _handleGrammarExtensionPointUser
    rw [if_neg hs]
    obtain ⟨hr, hi, hl⟩ := hinv
    have h1 : NoTraceOf p (registerStep st loc syn) := by
      refine ⟨?_, hi, hl⟩
      show TMScopeRegistry.register st.scopeRegistry syn.scopeName
          (pathJoin loc syn.path) syn.embeddedLanguages syn.tokenTypes p = none
      unfold TMScopeRegistry.register
      rw [if_neg (fun h => hne h.symm)]
      exact hr
    have h2 : NoTraceOf p (injectStep (registerStep st loc syn) syn) := by
      obtain ⟨hr1, hi1, hl1⟩ := h1
      unfold injectStep
      cases hit : syn.injectTo with
      | none => exact ⟨hr1, hi1, hl1⟩
      | some targets =>
        have hfold1 := foldl_addInjection_fields syn.scopeName targets (registerStep st loc syn)
        have hinj1 := foldl_addInjection_notMem syn.scopeName p hne targets
          (registerStep st loc syn) hi1
        cases hel : syn.embeddedLanguages with
        | none => exact ⟨hfold1.1 ▸ hr1, hinj1, hfold1.2 ▸ hl1⟩
        | some el =>
          have hfold2 := foldl_addInjectedEmbedded_fields el targets
            (targets.foldl (fun s t => addInjection s t syn.scopeName)
              (registerStep st loc syn))
          refine ⟨?_, ?_, ?_⟩
          · rw [hfold2.1, hfold1.1]
            exact hr1
          · intro t l hml
            rw [hfold2.2.1] at hml
            exact hinj1 t l hml
          · intro m
            rw [hfold2.2.2, hfold1.2]
            exact hl1 m
    obtain ⟨hr2, hi2, hl2⟩ := h2
    unfold languageStep
    split
    · exact ⟨hr2, hi2, hl2⟩
    · rename_i modeId heq
      split
      · exact ⟨hr2, hi2, hl2⟩
      · refine ⟨hr2, hi2, ?_⟩
        intro m hme
        have hme2 : (if m = modeId then some syn.scopeName
            else (injectStep (registerStep st loc syn) syn).languageToScope m) = some p := hme
        by_cases hmm : m = modeId
        · rw [if_pos hmm] at hme2
          exact hne (Option.some.inj hme2)
        · rw [if_neg hmm] at hme2
          exact hl2 m hme2

/-- Helper for C9: the invariant is preserved across any contribution
sequence. -/
theorem process_preserves_NoTraceOf (p : String) (hp : isProblematicInjection p = true) :
    ∀ (l : List (String × ITMSyntaxExtensionPoint)) (st : TextMateServiceState),
      NoTraceOf p st → NoTraceOf p (processContributions st l) := by
  intro l
  induction l with
  | nil => intro st h; exact h
  | cons c rest ih =>
    intro st h
    exact ih _ (handle_preserves_NoTraceOf p c.1 c.2 st hp h)

/-- C9: a contribution whose scope name is in the problematic list, contains
the documentation-dot-injection substring or matches the
jsdoc-dot-star-injection regex is refused at registration time: after
processing any contribution sequence from the fresh state, no such scope
name is registered, appears in any injection list, or is the image of any
language, and the final state is identical to the one obtained by dropping
every problematic contribution (so none of its data, including injected
embedded-language maps, is recorded anywhere). -/
theorem c9_problematic_contribution_registration_refused
    (contribs : List (String × ITMSyntaxExtensionPoint)) (p : String)
    (hp : isProblematicInjection p = true) :
    ((processContributions TextMateServiceState.initial contribs).scopeRegistry p = none) ∧
    (∀ t l, (processContributions TextMateServiceState.initial contribs).injections t = some l →
      ¬ p ∈ l) ∧
    (∀ m, ¬ (processContributions TextMateServiceState.initial contribs).languageToScope m
      = some p) ∧
    (processContributions TextMateServiceState.initial contribs =
      processContributions TextMateServiceState.initial
        (contribs.filter (fun c => !isProblematicInjection c.2.scopeName))) := by
  have base : NoTraceOf p TextMateServiceState.initial := by
    refine ⟨rfl, ?_, ?_⟩
    · intro t l h
      exact Option.noConfusion h
    · intro m h
      exact Option.noConfusion h
  obtain ⟨h1, h2, h3⟩ :=
    process_preserves_NoTraceOf p hp contribs TextMateServiceState.initial base
  exact ⟨h1, h2, h3, processContributions_filter_problematic contribs _⟩

/-- Witness for C9: processing one problematic and one ordinary contribution
from the fresh state leaves the problematic scope name unregistered. -/
theorem c9_problematic_contribution_registration_refused_witness :
    (isProblematicInjection "documentation.injection.ts" = true) ∧
    (processContributions TextMateServiceState.initial c9contribs).scopeRegistry
      "documentation.injection.ts" = none :=
  ⟨by decide,
    (c9_problematic_contribution_registration_refused c9contribs
      "documentation.injection.ts" (by decide)).1⟩
